import Mathlib

/-!
# Verification of the SooperLooper engine core (`src/engine.cpp`)

A shallow embedding of the control-and-scheduling core of the engine:
the real-time dispatch loop (`Engine::process`), the RT event queue push
paths (`Engine::push_command_event`, `Engine::push_control_event`), the
administrative push (`Engine::push_nonrt_event`), the instance-registry
operations (`Engine::add_loop`, `Engine::remove_loop` and the
`ConfigLoop(Remove)` handler of `Engine::mainloop`), the control-value
query (`Engine::get_control_value`) and the lifecycle teardown
(`Engine::cleanup`).

Machine integers are modelled as `Nat`/`Int` (with an explicit
`% 2 ^ 32` where the C++ code converts a signed index to `unsigned int`).
Side effects of the real-time dispatch loop (calls into the per-instance
processors) are modelled as an explicit trace of actions, in the order
the code performs them.
-/

namespace SooperLooper

/--
The RT event record, translated from `Event` as used by `engine.cpp`:
`Type`, `Command`, `Control`, `Value`, `Instance` (an `int8_t`, `-1`
meaning broadcast, modelled as `Int`) and the fragment position
`FragmentPos()` (cast to `nframes_t` by the dispatch loop, modelled as
`Nat`).  The C++ field `Type` is named `etype` here because `Type` is a
Lean keyword.
-/
structure Event where
  etype : Nat
  Command : Nat
  Control : Nat
  Value : Rat
  Instance : Int
  FragmentPos : Nat
deriving DecidableEq, Repr

/--
One observable call made by `Engine::process` on a processing instance:
`run inst start count` models `_instances[inst]->run (start, count)` and
`doEvent inst e` models `_instances[inst]->do_event (&e)`.
-/
inductive Action where
  | run (inst : Nat) (start : Nat) (count : Nat)
  | doEvent (inst : Nat) (ev : Event)
deriving DecidableEq, Repr

/--
The guard `evt->Instance == -1 || evt->Instance == m` of
`Engine::process` (line 250 of `engine.cpp`): the event addresses
instance `m` when its `Instance` field is the broadcast value `-1` or
equals `m`.
-/
def addressed (e : Event) (m : Nat) : Bool :=
  e.Instance == -1 || e.Instance == (m : Int)

/--
The per-event inner loop of `Engine::process` over a list of instance
indices `ms`: for each index `m`, `run (usedframes, doframes)` followed
by `do_event` exactly when the event addresses `m`.
-/
def cycleOver (evt : Event) (used doframes : Nat) : List Nat → List Action
  | [] => []
  | m :: rest =>
    Action.run m used doframes ::
      ((if addressed evt m then [Action.doEvent m evt] else []) ++
        cycleOver evt used doframes rest)

/--
The per-event inner loop of `Engine::process` (lines 243-253 of
`engine.cpp`), iterating the registry `_instances` in order; the
registry with `ninst` instances is the index list `0, …, ninst - 1`.
-/
def instanceCycle (ninst : Nat) (evt : Event) (used doframes : Nat) : List Action :=
  cycleOver evt used doframes (List.range ninst)

/--
The event-draining `while` loop of `Engine::process` (lines 219-256 of
`engine.cpp`).  The two contiguous read spans `vec.buf[0]` and
`vec.buf[1]` are walked first-then-second, which is their concatenation
`events`.  An event whose `fragpos` is `< usedframes` or `>= nframes` is
skipped (`continue`); otherwise `doframes = fragpos - usedframes`, every
instance runs for `doframes` frames (applying the event to the addressed
instances), and `usedframes += doframes`.  Returns the action trace and
the final `usedframes`.
-/
def processEvents (ninst nframes : Nat) : List Event → Nat → List Action × Nat
  | [], used => ([], used)
  | evt :: rest, used =>
    if evt.FragmentPos < used ∨ nframes ≤ evt.FragmentPos then
      processEvents ninst nframes rest used
    else
      let doframes := evt.FragmentPos - used
      (instanceCycle ninst evt used doframes ++
        (processEvents ninst nframes rest (used + doframes)).1,
       (processEvents ninst nframes rest (used + doframes)).2)

/--
The trailing per-instance loop of `Engine::process`: with `usedframes`
frames already rendered, `run (usedframes, nframes - usedframes)` on
every instance (lines 262-264 of `engine.cpp`; the no-events branch of
lines 269-271 is the `used = 0` case).
-/
def finalRuns (ninst used nframes : Nat) : List Action :=
  (List.range ninst).map (fun i => Action.run i used (nframes - used))

/--
The observable outcome of one call to `Engine::process`: the trace of
`run`/`do_event` calls, the amount by which the RT queue's read pointer
is advanced (`increment_read_ptr`), and the frame count passed to
`_event_generator->updateFragmentTime`.
-/
structure ProcessResult where
  actions : List Action
  readAdvance : Nat
  fragAdvance : Nat
deriving DecidableEq, Repr

/--
`Engine::process (nframes)` (lines 186-280 of `engine.cpp`), for a
registry of `ninst` instances and a read vector holding `events`
(concatenation of the two spans; a ring buffer's first read span is
empty only when no data is available, so `num > 0` is `events ≠ []`).
`locked` is the outcome of the tentative acquisition of
`_instance_lock`.  `updateFragmentTime (nframes)` happens before the
lock test, in every case.  On lock failure nothing else happens; with
the lock held and no events, every instance runs `(0, nframes)`;
otherwise the events are drained, the read pointer advances by
`vec.len[0] + vec.len[1]` (all events, the skipped ones included) and
the remainder of the buffer is rendered.
-/
def Engine.process (locked : Bool) (ninst nframes : Nat) (events : List Event) :
    ProcessResult :=
  if locked = false then
    { actions := [], readAdvance := 0, fragAdvance := nframes }
  else if 0 < events.length then
    { actions :=
        (processEvents ninst nframes events 0).1 ++
          finalRuns ninst (processEvents ninst nframes events 0).2 nframes,
      readAdvance := events.length,
      fragAdvance := nframes }
  else
    { actions := finalRuns ninst 0 nframes, readAdvance := 0, fragAdvance := nframes }

/-- The `run` calls received by instance `i`, as `(start, count)` pairs. -/
def runsFor (i : Nat) (acts : List Action) : List (Nat × Nat) :=
  acts.filterMap (fun a =>
    match a with
    | Action.run j s c => if j = i then some (s, c) else none
    | Action.doEvent _ _ => none)

/-- The events applied (`do_event`) to instance `i`, in trace order. -/
def eventsFor (i : Nat) (acts : List Action) : List Event :=
  acts.filterMap (fun a =>
    match a with
    | Action.run _ _ _ => none
    | Action.doEvent j e => if j = i then some e else none)

/--
The partition of a `nframes`-frame buffer at the offsets `offs`,
starting from `used` frames already rendered: one `(start, count)` span
per offset, plus the final remainder span.
-/
def partitionSpans : List Nat → Nat → Nat → List (Nat × Nat)
  | [], used, nframes => [(used, nframes - used)]
  | o :: rest, used, nframes => (used, o - used) :: partitionSpans rest o nframes

/-- The spans rendered before each event offset (no remainder span). -/
def stepsSpans : List Nat → Nat → List (Nat × Nat)
  | [], _ => []
  | o :: rest, used => (used, o - used) :: stepsSpans rest o

/-- The value of `usedframes` after consuming the offsets `offs`. -/
def lastUsed : List Nat → Nat → Nat
  | [], used => used
  | o :: rest, _ => lastUsed rest o

/-! ## Projection lemmas for the action trace -/

theorem runsFor_append (i : Nat) (a b : List Action) :
    runsFor i (a ++ b) = runsFor i a ++ runsFor i b := by
  simp [runsFor, List.filterMap_append]

theorem eventsFor_append (i : Nat) (a b : List Action) :
    eventsFor i (a ++ b) = eventsFor i a ++ eventsFor i b := by
  simp [eventsFor, List.filterMap_append]

theorem filter_range_eq (i n : Nat) :
    (List.range n).filter (fun m => m = i) = if i < n then [i] else [] := by
  induction n with
  | zero => simp
  | succ n ih =>
    rw [List.range_succ, List.filter_append, ih]
    by_cases h1 : i < n
    · have h2 : ¬ (n = i) := by omega
      have h3 : i < n + 1 := by omega
      simp [h1, h2, h3]
    · by_cases h2 : i = n
      · simp [h1, h2]
      · have h3 : ¬ (n = i) := by omega
        have h4 : ¬ (i < n + 1) := by omega
        simp [h1, h3, h4]

theorem runsFor_cycleOver_cons (i : Nat) (evt : Event) (u d m : Nat) (rest : List Nat) :
    runsFor i (cycleOver evt u d (m :: rest))
      = (if m = i then [((u, d) : Nat × Nat)] else []) ++ runsFor i (cycleOver evt u d rest) := by
  by_cases ha : addressed evt m <;> by_cases hm : m = i <;>
    simp [cycleOver, runsFor, List.filterMap_cons, List.filterMap_append, ha, hm]

theorem runsFor_cycleOver (i : Nat) (evt : Event) (u d : Nat) (ms : List Nat) :
    runsFor i (cycleOver evt u d ms)
      = (ms.filter (fun m => m = i)).map (fun _ => ((u, d) : Nat × Nat)) := by
  induction ms with
  | nil => rfl
  | cons m rest ih =>
    rw [runsFor_cycleOver_cons, ih, List.filter_cons]
    by_cases hm : m = i <;> simp [hm]

theorem eventsFor_cycleOver_cons (i : Nat) (evt : Event) (u d m : Nat) (rest : List Nat) :
    eventsFor i (cycleOver evt u d (m :: rest))
      = (if m = i ∧ addressed evt m then [evt] else []) ++ eventsFor i (cycleOver evt u d rest) := by
  by_cases hm : m = i
  · subst hm
    by_cases ha : addressed evt m <;>
      simp [cycleOver, eventsFor, List.filterMap_cons, List.filterMap_append, ha]
  · by_cases ha : addressed evt m <;>
      simp [cycleOver, eventsFor, List.filterMap_cons, List.filterMap_append, ha, hm]

theorem eventsFor_cycleOver (i : Nat) (evt : Event) (u d : Nat) (ms : List Nat) :
    eventsFor i (cycleOver evt u d ms)
      = (ms.filter (fun m => m = i ∧ addressed evt m)).map (fun _ => evt) := by
  induction ms with
  | nil => rfl
  | cons m rest ih =>
    rw [eventsFor_cycleOver_cons, ih, List.filter_cons]
    by_cases hm : m = i
    · subst hm
      by_cases ha : addressed evt m <;> simp [ha]
    · simp [hm]

theorem runsFor_instanceCycle (i ninst : Nat) (evt : Event) (u d : Nat)
    (hi : i < ninst) :
    runsFor i (instanceCycle ninst evt u d) = [(u, d)] := by
  rw [instanceCycle, runsFor_cycleOver, filter_range_eq]
  simp [hi]

theorem eventsFor_instanceCycle (i ninst : Nat) (evt : Event) (u d : Nat)
    (hi : i < ninst) :
    eventsFor i (instanceCycle ninst evt u d)
      = if addressed evt i then [evt] else [] := by
  rw [instanceCycle, eventsFor_cycleOver]
  by_cases ha : addressed evt i
  · have hfe : (List.range ninst).filter (fun m => m = i ∧ addressed evt m)
        = (List.range ninst).filter (fun m => m = i) := by
      apply List.filter_congr
      intro m _
      by_cases hm : m = i
      · subst hm; simp [ha]
      · simp [hm]
    rw [hfe, filter_range_eq]
    simp [hi, ha]
  · have hfe : (List.range ninst).filter (fun m => m = i ∧ addressed evt m) = [] := by
      apply List.filter_eq_nil_iff.mpr
      intro m _
      by_cases hm : m = i
      · subst hm; simp [ha]
      · simp [hm]
    rw [hfe]
    simp [ha]

theorem runsFor_finalRuns (i ninst u n : Nat) (hi : i < ninst) :
    runsFor i (finalRuns ninst u n) = [(u, n - u)] := by
  rw [finalRuns, runsFor, List.filterMap_map]
  have : (List.range ninst).filterMap
        ((fun a => match a with
          | Action.run j s c => if j = i then some (s, c) else none
          | Action.doEvent _ _ => none) ∘ fun j => Action.run j u (n - u))
      = (List.range ninst).filterMap
          (fun j => if j = i then some (u, n - u) else none) := rfl
  rw [this]
  have h2 : ∀ l : List Nat,
      l.filterMap (fun j => if j = i then some (u, n - u) else none)
        = (l.filter (fun m => m = i)).map (fun _ => (u, n - u)) := by
    intro l
    induction l with
    | nil => rfl
    | cons m rest ih =>
      by_cases hm : m = i <;>
        simp [List.filterMap_cons, List.filter_cons, hm, ih]
  rw [h2, filter_range_eq]
  simp [hi]

theorem eventsFor_finalRuns (i ninst u n : Nat) :
    eventsFor i (finalRuns ninst u n) = [] := by
  rw [finalRuns, eventsFor, List.filterMap_map]
  apply List.filterMap_eq_nil_iff.mpr
  intro j _
  rfl

/-! ## Dispatch of a sorted event sequence -/

theorem processEvents_sorted (ninst nframes i : Nat) (hi : i < ninst) :
    ∀ (events : List Event) (used : Nat),
      List.Pairwise (fun a b => a < b) (events.map Event.FragmentPos) →
      (∀ e ∈ events, used ≤ e.FragmentPos ∧ e.FragmentPos < nframes) →
      eventsFor i (processEvents ninst nframes events used).1
          = events.filter (fun e => addressed e i)
        ∧ runsFor i (processEvents ninst nframes events used).1
          = stepsSpans (events.map Event.FragmentPos) used
        ∧ (processEvents ninst nframes events used).2
          = lastUsed (events.map Event.FragmentPos) used := by
  intro events
  induction events with
  | nil => exact fun used _ _ => ⟨rfl, rfl, rfl⟩
  | cons evt rest ih =>
    intro used hp hb
    have hu : used ≤ evt.FragmentPos := (hb evt (List.mem_cons_self _ _)).1
    have hn : evt.FragmentPos < nframes := (hb evt (List.mem_cons_self _ _)).2
    have hguard : ¬ (evt.FragmentPos < used ∨ nframes ≤ evt.FragmentPos) := by omega
    have hsum : used + (evt.FragmentPos - used) = evt.FragmentPos := by omega
    rw [List.map_cons, List.pairwise_cons] at hp
    have hbrest : ∀ e ∈ rest, evt.FragmentPos ≤ e.FragmentPos ∧ e.FragmentPos < nframes := by
      intro e he
      exact ⟨le_of_lt (hp.1 e.FragmentPos (List.mem_map_of_mem _ he)),
             (hb e (List.mem_cons_of_mem _ he)).2⟩
    obtain ⟨ih1, ih2, ih3⟩ := ih evt.FragmentPos hp.2 hbrest
    have hstep : processEvents ninst nframes (evt :: rest) used
        = (instanceCycle ninst evt used (evt.FragmentPos - used) ++
            (processEvents ninst nframes rest evt.FragmentPos).1,
           (processEvents ninst nframes rest evt.FragmentPos).2) := by
      simp only [processEvents, if_neg hguard]
      rw [hsum]
    rw [hstep]
    refine ⟨?_, ?_, ?_⟩
    · rw [eventsFor_append, eventsFor_instanceCycle i ninst evt _ _ hi, ih1, List.filter_cons]
      by_cases ha : addressed evt i <;> simp [ha]
    · rw [runsFor_append, runsFor_instanceCycle i ninst evt _ _ hi, ih2, List.map_cons]
      simp [stepsSpans]
    · rw [ih3, List.map_cons]
      simp [lastUsed]

theorem partitionSpans_eq_stepsSpans (offs : List Nat) :
    ∀ (used nframes : Nat),
      partitionSpans offs used nframes
        = stepsSpans offs used ++ [(lastUsed offs used, nframes - lastUsed offs used)] := by
  induction offs with
  | nil => intro used nframes; rfl
  | cons o rest ih =>
    intro used nframes
    simp [partitionSpans, stepsSpans, lastUsed, ih]

theorem sum_partitionSpans (offs : List Nat) :
    ∀ (used nframes : Nat),
      List.Pairwise (fun a b => a < b) offs →
      (∀ o ∈ offs, used ≤ o ∧ o < nframes) →
      ((partitionSpans offs used nframes).map Prod.snd).sum = nframes - used := by
  induction offs with
  | nil => intro used nframes _ _; simp [partitionSpans]
  | cons o rest ih =>
    intro used nframes hp hb
    rw [List.pairwise_cons] at hp
    have h1 : used ≤ o := (hb o (List.mem_cons_self _ _)).1
    have h2 : o < nframes := (hb o (List.mem_cons_self _ _)).2
    have hrest : ∀ x ∈ rest, o ≤ x ∧ x < nframes := by
      intro x hx
      exact ⟨le_of_lt (hp.1 x hx), (hb x (List.mem_cons_of_mem _ hx)).2⟩
    have hih := ih o nframes hp.2 hrest
    simp [partitionSpans, hih]
    omega

/--
C1: for a buffer of `nframes` frames and pending RT events whose
fragment offsets are strictly increasing within `[0, nframes)`,
`Engine::process` applies each event to exactly its addressed
instance(s) in offset order, and the `run (start, count)` calls each
instance receives are exactly the partition of the buffer at the event
offsets, whose frame spans sum to exactly `nframes`.
-/
theorem process_partitions_buffer (ninst nframes : Nat) (events : List Event)
    (hsort : List.Pairwise (fun a b => a < b) (events.map Event.FragmentPos))
    (hbound : ∀ e ∈ events, e.FragmentPos < nframes)
    (i : Nat) (hi : i < ninst) :
    eventsFor i (Engine.process true ninst nframes events).actions
        = events.filter (fun e => addressed e i)
      ∧ runsFor i (Engine.process true ninst nframes events).actions
        = partitionSpans (events.map Event.FragmentPos) 0 nframes
      ∧ ((runsFor i (Engine.process true ninst nframes events).actions).map Prod.snd).sum
        = nframes := by
  have hb0 : ∀ e ∈ events, 0 ≤ e.FragmentPos ∧ e.FragmentPos < nframes :=
    fun e he => ⟨Nat.zero_le _, hbound e he⟩
  have hoff : ∀ o ∈ events.map Event.FragmentPos, 0 ≤ o ∧ o < nframes := by
    intro o ho
    obtain ⟨e, he, rfl⟩ := List.mem_map.mp ho
    exact ⟨Nat.zero_le _, hbound e he⟩
  cases events with
  | nil =>
    refine ⟨?_, ?_, ?_⟩
    · simp [Engine.process, eventsFor_finalRuns]
    · simp [Engine.process, partitionSpans, runsFor_finalRuns i ninst 0 nframes hi]
    · simp [Engine.process, runsFor_finalRuns i ninst 0 nframes hi]
  | cons e0 rest =>
    obtain ⟨h1, h2, h3⟩ :=
      processEvents_sorted ninst nframes i hi (e0 :: rest) 0 hsort hb0
    have hproc : (Engine.process true ninst nframes (e0 :: rest)).actions
        = (processEvents ninst nframes (e0 :: rest) 0).1 ++
            finalRuns ninst (processEvents ninst nframes (e0 :: rest) 0).2 nframes := by
      simp [Engine.process]
    have hruns : runsFor i (Engine.process true ninst nframes (e0 :: rest)).actions
        = partitionSpans ((e0 :: rest).map Event.FragmentPos) 0 nframes := by
      rw [hproc, runsFor_append, h2, h3,
        runsFor_finalRuns i ninst (lastUsed ((e0 :: rest).map Event.FragmentPos) 0) nframes hi,
        partitionSpans_eq_stepsSpans]
    refine ⟨?_, hruns, ?_⟩
    · rw [hproc, eventsFor_append, h1, eventsFor_finalRuns, List.append_nil]
    · rw [hruns, sum_partitionSpans ((e0 :: rest).map Event.FragmentPos) 0 nframes hsort hoff]
      omega

/-- A 2-frame-offset command to instance 0 in an 8-frame buffer. -/
def evA : Event :=
  { etype := 0, Command := 1, Control := 0, Value := 0, Instance := 0, FragmentPos := 2 }

/-- A 5-frame-offset broadcast command in an 8-frame buffer. -/
def evB : Event :=
  { etype := 0, Command := 2, Control := 0, Value := 0, Instance := -1, FragmentPos := 5 }

/-- Witness for C1 at a concrete input: two instances, `nframes = 8`. -/
theorem process_partitions_buffer_witness :
    eventsFor 1 (Engine.process true 2 8 [evA, evB]).actions
        = [evA, evB].filter (fun e => addressed e 1)
      ∧ runsFor 1 (Engine.process true 2 8 [evA, evB]).actions
        = partitionSpans ([evA, evB].map Event.FragmentPos) 0 8
      ∧ ((runsFor 1 (Engine.process true 2 8 [evA, evB]).actions).map Prod.snd).sum = 8 :=
  process_partitions_buffer 2 8 [evA, evB] (by decide) (by decide) 1 (by decide)

/-! ## Skipping of stale or out-of-range events -/

theorem processEvents_skip (ninst nframes : Nat) (e : Event) (suf : List Event) :
    ∀ (pre : List Event) (used : Nat),
      (e.FragmentPos < (processEvents ninst nframes pre used).2 ∨
        nframes ≤ e.FragmentPos) →
      processEvents ninst nframes (pre ++ e :: suf) used
        = processEvents ninst nframes (pre ++ suf) used := by
  intro pre
  induction pre with
  | nil =>
    intro used hbad
    have hguard : e.FragmentPos < used ∨ nframes ≤ e.FragmentPos := by
      simpa [processEvents] using hbad
    simp [processEvents, hguard]
  | cons p pre ih =>
    intro used hbad
    rw [List.cons_append, List.cons_append]
    by_cases hg : p.FragmentPos < used ∨ nframes ≤ p.FragmentPos
    · have hbad2 : e.FragmentPos < (processEvents ninst nframes pre used).2 ∨
          nframes ≤ e.FragmentPos := by
        simpa [processEvents, hg] using hbad
      simp only [processEvents, if_pos hg]
      exact ih used hbad2
    · have hbad2 : e.FragmentPos
          < (processEvents ninst nframes pre (used + (p.FragmentPos - used))).2 ∨
          nframes ≤ e.FragmentPos := by
        simpa [processEvents, hg] using hbad
      simp only [processEvents, if_neg hg]
      rw [ih _ hbad2]

/--
C2: an event whose `fragmentOffset` is `≥ nframes`, or less than the
cumulative `usedframes` rendered for the earlier events of the same
buffer, is skipped silently: the dispatch trace (runs and event
applications) is as if the event were absent, and `usedframes` does not
advance.
-/
theorem process_drops_bad_offset (ninst nframes : Nat) (pre suf : List Event) (e : Event)
    (hbad : e.FragmentPos < (processEvents ninst nframes pre 0).2 ∨
      nframes ≤ e.FragmentPos) :
    (Engine.process true ninst nframes (pre ++ e :: suf)).actions
        = (Engine.process true ninst nframes (pre ++ suf)).actions
      ∧ (processEvents ninst nframes (pre ++ e :: suf) 0).2
        = (processEvents ninst nframes (pre ++ suf) 0).2 := by
  have hskip := processEvents_skip ninst nframes e suf pre 0 hbad
  constructor
  · rcases Nat.eq_zero_or_pos (pre ++ suf).length with hz | hpos
    · have hpre : pre = [] := by
        cases pre with
        | nil => rfl
        | cons a l => simp at hz
      subst hpre
      have hsuf : suf = [] := by
        cases suf with
        | nil => rfl
        | cons a l => simp at hz
      subst hsuf
      simp only [List.nil_append] at hskip
      simp only [List.nil_append]
      have h1 : (Engine.process true ninst nframes [e]).actions
          = (processEvents ninst nframes [e] 0).1 ++
              finalRuns ninst (processEvents ninst nframes [e] 0).2 nframes := by
        simp [Engine.process]
      rw [h1, hskip]
      simp [Engine.process, processEvents]
    · have hpos2 : 0 < (pre ++ e :: suf).length := by
        simp only [List.length_append, List.length_cons]
        omega
      simp only [Engine.process, if_neg (by simp : ¬(true = false)), if_pos hpos,
        if_pos hpos2, hskip]
  · rw [hskip]

/-- An out-of-order event: fragment offset 1 arriving after `evA` (offset 2). -/
def evStale : Event :=
  { etype := 0, Command := 3, Control := 0, Value := 0, Instance := 0, FragmentPos := 1 }

/-- Witness for C2 at a concrete input: one instance, `nframes = 8`. -/
theorem process_drops_bad_offset_witness :
    (Engine.process true 1 8 ([evA] ++ evStale :: [])).actions
        = (Engine.process true 1 8 ([evA] ++ [])).actions
      ∧ (processEvents 1 8 ([evA] ++ evStale :: []) 0).2
        = (processEvents 1 8 ([evA] ++ []) 0).2 :=
  process_drops_bad_offset 1 8 [evA] [] evStale (Or.inl (by decide))

/-! ## Event targeting: broadcast versus a specific instance -/

theorem doEvent_mem_cycleOver (evt : Event) (u d : Nat) (i : Nat) (ms : List Nat) :
    (Action.doEvent i evt ∈ cycleOver evt u d ms) ↔ (i ∈ ms ∧ addressed evt i) := by
  induction ms with
  | nil => simp [cycleOver]
  | cons m rest ih =>
    by_cases hm : m = i
    · subst hm
      by_cases ha : addressed evt m <;> simp [cycleOver, ha, ih]
    · by_cases ha : addressed evt m <;> simp [cycleOver, ha, hm, ih, Ne.symm hm]

theorem doEvent_not_mem_finalRuns (i : Nat) (e : Event) (ninst u n : Nat) :
    Action.doEvent i e ∉ finalRuns ninst u n := by
  simp [finalRuns]

theorem addressed_iff (e : Event) (i : Nat) :
    addressed e i = true ↔ (e.Instance = -1 ∨ e.Instance = (i : Int)) := by
  simp [addressed]

/--
C3: dispatching a valid event, a `targetInstance` of `-1` reaches
every instance of the registry and a non-negative `targetInstance`
reaches exactly the instance with that positional index: `do_event` is
called on instance `i` if and only if `i` is a registry index and the
event addresses it.
-/
theorem event_targeting (ninst nframes : Nat) (e : Event) (i : Nat)
    (hv : e.FragmentPos < nframes) :
    (Action.doEvent i e ∈ (Engine.process true ninst nframes [e]).actions)
      ↔ (i < ninst ∧ (e.Instance = -1 ∨ e.Instance = (i : Int))) := by
  have hnle : ¬ nframes ≤ e.FragmentPos := by omega
  have hacts : (Engine.process true ninst nframes [e]).actions
      = instanceCycle ninst e 0 e.FragmentPos ++
          finalRuns ninst e.FragmentPos nframes := by
    simp [Engine.process, processEvents, hnle]
  rw [hacts, List.mem_append, instanceCycle,
    doEvent_mem_cycleOver, List.mem_range]
  have hnf := doEvent_not_mem_finalRuns i e ninst e.FragmentPos nframes
  rw [addressed_iff]
  tauto

/-- Witness for C3 at a concrete input: broadcast event `evB`, two instances. -/
theorem event_targeting_witness :
    (Action.doEvent 1 evB ∈ (Engine.process true 2 8 [evB]).actions)
      ↔ (1 < 2 ∧ (evB.Instance = -1 ∨ evB.Instance = ((1 : Nat) : Int))) :=
  event_targeting 2 8 evB 1 (by decide)

/-! ## Behavior on registry-lock contention -/

/--
C6: when the tentative acquisition of `_instance_lock` fails,
`Engine::process` still advances the event generator's fragment time by
`nframes`, but produces no `run` or `do_event` call and does not advance
the RT queue's read pointer, leaving every pending event queued.
-/
theorem process_lock_contention (ninst nframes : Nat) (events : List Event) :
    (Engine.process false ninst nframes events).actions = []
      ∧ (Engine.process false ninst nframes events).readAdvance = 0
      ∧ (Engine.process false ninst nframes events).fragAdvance = nframes :=
  ⟨rfl, rfl, rfl⟩

/-! ## The RT event queue push paths -/

/--
Modelled from the spec: the bounded lock-free ring buffer
`RingBuffer<Event>` (constructed with capacity `MAX_EVENTS = 1024`),
whose implementation is not part of this repository snapshot.  The
queue holds `events` up to a fixed `capacity`; `get_write_vector`
returns up to two contiguous spans whose combined length is the free
capacity, the first span (`vec.len[0]`) being empty exactly when the
queue is full; `increment_write_ptr (1)` appends the freshly written
event after the previously queued ones.
-/
structure EventQueue where
  capacity : Nat
  events : List Event
deriving DecidableEq, Repr

/--
Modelled from the spec: the free capacity of the queue, the combined
length of the two spans of the write region; `vec.len[0] == 0` holds
exactly when this is `0`.
-/
def EventQueue.writeSpace (q : EventQueue) : Nat := q.capacity - q.events.length

/--
`Engine::push_command_event (type, cmd, instance)` (lines 283-308 of
`engine.cpp`): acquire the write vector; if `vec.len[0] == 0` the queue
is full and the push is rejected with `false`; otherwise copy a fresh
stamped event from `get_event_generator().createEvent()` (the `stamp`
argument) into the slot, set its `Type`, `Command` and `Instance`
fields, advance the write pointer by one, and return `true`.
-/
def Engine.push_command_event (q : EventQueue) (stamp : Event) (ty cmd : Nat)
    (inst : Int) : Bool × EventQueue :=
  if q.writeSpace = 0 then
    (false, q)
  else
    (true, { q with events := q.events ++
      [{ stamp with etype := ty, Command := cmd, Instance := inst }] })

/--
`Engine::push_control_event (type, ctrl, val, instance)` (lines 311-338
of `engine.cpp`): identical to `push_command_event` except that the
stamped event's `Control`, `Value` and `Instance` fields are set.
-/
def Engine.push_control_event (q : EventQueue) (stamp : Event) (ty ctrl : Nat)
    (val : Rat) (inst : Int) : Bool × EventQueue :=
  if q.writeSpace = 0 then
    (false, q)
  else
    (true, { q with events := q.events ++
      [{ stamp with etype := ty, Control := ctrl, Value := val, Instance := inst }] })

/--
C4: when the RT event queue's free write region is empty (queue full),
`push_command_event` and `push_control_event` return `false` and leave
the queue exactly as it was; when it is not full, each push stamps
exactly one event, appends it after the previously queued events
(leaving them unchanged) and advances the write cursor by one.
-/
theorem push_event_queue_spec (q : EventQueue) (stamp : Event) (ty cmd ctl : Nat)
    (v : Rat) (inst : Int) :
    (q.writeSpace = 0 →
        Engine.push_command_event q stamp ty cmd inst = (false, q)
      ∧ Engine.push_control_event q stamp ty ctl v inst = (false, q))
    ∧ (q.writeSpace ≠ 0 →
        Engine.push_command_event q stamp ty cmd inst
          = (true, { q with events := q.events ++
              [{ stamp with etype := ty, Command := cmd, Instance := inst }] })
      ∧ Engine.push_control_event q stamp ty ctl v inst
          = (true, { q with events := q.events ++ [{ stamp with etype := ty, Control := ctl, Value := v, Instance := inst }] })) := by
  constructor
  · intro h
    constructor <;> simp [Engine.push_command_event, Engine.push_control_event, h]
  · intro h
    constructor <;> simp [Engine.push_command_event, Engine.push_control_event, h]

/-- Witness for C4: a full capacity-1 queue rejects, a capacity-2 one accepts. -/
theorem push_event_queue_spec_witness :
    Engine.push_command_event ⟨1, [evA]⟩ evB 0 5 0 = (false, ⟨1, [evA]⟩)
    ∧ Engine.push_command_event ⟨2, [evA]⟩ evB 0 5 0
        = (true, ⟨2, [evA, { evB with etype := 0, Command := 5, Instance := 0 }]⟩) :=
  ⟨((push_event_queue_spec ⟨1, [evA]⟩ evB 0 5 0 0 0).1 (by decide)).1,
   ((push_event_queue_spec ⟨2, [evA]⟩ evB 0 5 0 0 0).2 (by decide)).1⟩

/-! ## The administrative push path -/

/--
The closed family of non-real-time events dispatched by
`Engine::mainloop` (`EventNonRT` subclasses), as a sum type.  Only the
payloads the engine core reads are modelled.
-/
inductive EventNonRT where
  | GetParamEvent (control : Nat) (inst : Int)
  | ConfigUpdateEvent
  | ConfigLoopEventAdd (channels : Nat)
  | ConfigLoopEventRemove (index : Int)
  | PingEvent
  | RegisterConfigEvent
deriving DecidableEq, Repr

/--
Modelled from the spec: the administrative queue
`RingBuffer<EventNonRT *>`, whose implementation is not part of this
repository snapshot; same fixed-capacity ring as the RT queue.
-/
structure NonRTQueue where
  capacity : Nat
  events : List EventNonRT
deriving DecidableEq, Repr

/--
Modelled from the spec: the single-element convenience form
`RingBuffer::write (&event, 1)` used by the administrative path.  When
the write region is empty, the queue is full and the element is
dropped rather than blocking; the returned count is the number of
elements actually written (`0` or `1`).
-/
def NonRTQueue.write (q : NonRTQueue) (e : EventNonRT) : Nat × NonRTQueue :=
  if q.capacity - q.events.length = 0 then (0, q)
  else (1, { q with events := q.events ++ [e] })

/--
`Engine::push_nonrt_event (event)` (lines 356-366 of `engine.cpp`):
call `_nonrt_event_queue->write (&event, 1)` (its return value is
ignored), signal `_event_cond` under `_event_loop_lock`, and return
`true`.
-/
def Engine.push_nonrt_event (q : NonRTQueue) (e : EventNonRT) : Bool × NonRTQueue :=
  (true, (q.write e).2)

/--
C5 counterexample: with the administrative queue full (capacity 1, one
queued event), `Engine::push_nonrt_event` silently drops the event and
still returns `true`, not `false` as the claim states.
-/
theorem push_nonrt_event_full_counterexample :
    (Engine.push_nonrt_event ⟨1, [EventNonRT.PingEvent]⟩ EventNonRT.PingEvent).1
        = true
    ∧ (Engine.push_nonrt_event ⟨1, [EventNonRT.PingEvent]⟩ EventNonRT.PingEvent).2
        = ⟨1, [EventNonRT.PingEvent]⟩ :=
  ⟨rfl, rfl⟩

/--
C5 (amended): `push_command_event` and `push_control_event` report a
full queue as a boolean `false`, but `Engine::push_nonrt_event` returns
`true` unconditionally — when the administrative queue is full the
event is dropped (the queue is unchanged) and the failure is not
reported to the pusher.
-/
theorem push_nonrt_event_always_true (q : NonRTQueue) (e : EventNonRT) :
    (Engine.push_nonrt_event q e).1 = true
    ∧ (q.capacity - q.events.length = 0 →
        (Engine.push_nonrt_event q e).2 = q) := by
  constructor
  · rfl
  · intro h
    simp [Engine.push_nonrt_event, NonRTQueue.write, h]

/-- Witness for the amended C5 at a concrete full queue. -/
theorem push_nonrt_event_always_true_witness :
    (Engine.push_nonrt_event ⟨1, [EventNonRT.ConfigUpdateEvent]⟩
        EventNonRT.PingEvent).1 = true
    ∧ (Engine.push_nonrt_event ⟨1, [EventNonRT.ConfigUpdateEvent]⟩
        EventNonRT.PingEvent).2 = ⟨1, [EventNonRT.ConfigUpdateEvent]⟩ :=
  ⟨(push_nonrt_event_always_true ⟨1, [EventNonRT.ConfigUpdateEvent]⟩
      EventNonRT.PingEvent).1,
   (push_nonrt_event_always_true ⟨1, [EventNonRT.ConfigUpdateEvent]⟩
      EventNonRT.PingEvent).2 (by decide)⟩

/-! ## Instance registry operations -/

/--
A processing instance (`Looper`) as the registry sees it: constructed
as `Looper (driver, index, channels)` where `index` is the registry
size at creation time.
-/
structure Looper where
  index : Nat
  channels : Nat
deriving DecidableEq, Repr

/--
`Engine::add_loop (chans)` (lines 115-140 of `engine.cpp`): under
`_instance_lock`, construct `Looper (driver, _instances.size(), chans)`
and record `n = _instances.size()`; if the activation call
`(*instance)()` fails (`activateOk = false`), delete the instance and
return `false`; otherwise `push_back` it and, after releasing the lock,
emit `LoopAdded (n)`.  Returns the success flag, the new registry and
the emitted notification index, if any.
-/
def Engine.add_loop (instances : List Looper) (chans : Nat) (activateOk : Bool) :
    Bool × List Looper × Option Nat :=
  let inst : Looper := { index := instances.length, channels := chans }
  let n := instances.length
  if activateOk = false then (false, instances, none)
  else (true, instances ++ [inst], some n)

/--
C7: `add_loop` is atomic on failure — when activation fails it returns
`false`, the registry is exactly what it was, and no `LoopAdded`
notification is emitted; on success it appends one instance whose
`index` equals the registry size at creation time and emits `LoopAdded`
with that index.
-/
theorem add_loop_atomic (instances : List Looper) (chans : Nat) (activateOk : Bool) :
    (activateOk = false →
        Engine.add_loop instances chans activateOk = (false, instances, none))
    ∧ (activateOk = true →
        Engine.add_loop instances chans activateOk
          = (true,
             instances ++ [{ index := instances.length, channels := chans }],
             some instances.length)) := by
  constructor <;> intro h <;> simp [Engine.add_loop, h]

/-- Witness for C7 on an empty registry, both outcomes of activation. -/
theorem add_loop_atomic_witness :
    Engine.add_loop [] 2 false = (false, [], none)
    ∧ Engine.add_loop [] 2 true
        = (true, [{ index := 0, channels := 2 }], some 0) :=
  ⟨(add_loop_atomic [] 2 false).1 rfl, (add_loop_atomic [] 2 true).2 rfl⟩

/--
`Engine::remove_loop (index)` (lines 143-163 of `engine.cpp`): under
`_instance_lock`, if `index < _instances.size()`, erase the instance at
that position, delete it, emit `LoopRemoved` and return `true`;
otherwise return `false` with the registry unchanged.  The parameter is
`unsigned int`.
-/
def Engine.remove_loop (instances : List Looper) (index : Nat) : Bool × List Looper :=
  if index < instances.length then (true, instances.eraseIdx index)
  else (false, instances)

/--
The `ConfigLoop(Remove)` branch of `Engine::mainloop` (lines 408-414 of
`engine.cpp`): if `cl_event->index == -1`, set it to
`_instances.size() - 1` (for an empty registry the `size_t` wraparound
stored into the `int` field yields `-1` again); then call
`remove_loop (index)`, the `int` argument converting to the
`unsigned int` parameter modulo `2 ^ 32`.
-/
def mainloopConfigLoopRemove (instances : List Looper) (index : Int) :
    Bool × List Looper :=
  let index2 : Int := if index = -1 then (instances.length : Int) - 1 else index
  Engine.remove_loop instances (index2 % (2 ^ 32)).toNat

/--
C8: the worker resolves a `ConfigLoop(Remove)` index of `-1` to the
last instance (registry size minus one) before removal; `remove_loop`
returns `true` and erases exactly the instance at the given position
when the index is in bounds, and returns `false` leaving the registry
unchanged when it is out of bounds.
-/
theorem remove_loop_spec (instances : List Looper) (idx : Nat)
    (hsize : instances.length < 2 ^ 32) :
    mainloopConfigLoopRemove instances (-1)
        = Engine.remove_loop instances (instances.length - 1)
    ∧ (idx < instances.length →
        Engine.remove_loop instances idx = (true, instances.eraseIdx idx))
    ∧ (instances.length ≤ idx →
        Engine.remove_loop instances idx = (false, instances)) := by
  refine ⟨?_, ?_, ?_⟩
  · by_cases h0 : instances.length = 0
    · have hnil : instances = [] := List.length_eq_zero.mp h0
      subst hnil
      simp [mainloopConfigLoopRemove, Engine.remove_loop]
    · have hemod : ((instances.length : Int) - 1) % (2 ^ 32)
          = (instances.length : Int) - 1 :=
        Int.emod_eq_of_lt (by omega) (by omega)
      have htn : ((instances.length : Int) - 1).toNat = instances.length - 1 := by
        omega
      have hunfold : mainloopConfigLoopRemove instances (-1)
          = Engine.remove_loop instances
              ((((instances.length : Int) - 1) % (2 ^ 32)).toNat) := rfl
      rw [hunfold, hemod, htn]
  · intro h
    simp [Engine.remove_loop, h]
  · intro h
    have h2 : ¬ idx < instances.length := by omega
    simp [Engine.remove_loop, h2]

/-- Witness for C8: a one-instance registry, `-1` resolving to index 0. -/
theorem remove_loop_spec_witness :
    mainloopConfigLoopRemove [({ index := 0, channels := 2 } : Looper)] (-1)
        = Engine.remove_loop [{ index := 0, channels := 2 }] 0
    ∧ Engine.remove_loop [({ index := 0, channels := 2 } : Looper)] 0
        = (true, []) := by
  have h := remove_loop_spec [({ index := 0, channels := 2 } : Looper)] 0
    (by norm_num)
  exact ⟨h.1, h.2.1 (by decide)⟩

/-! ## The control-value query -/

/--
`Engine::get_control_value (ctrl, instance)` (lines 341-353 of
`engine.cpp`): if `instance >= 0 && instance < (int) _instances.size()`
return `_instances[instance]->get_control_value (ctrl)`, otherwise
`0.0f`.  Each instance is modelled by its control-value table
`Nat → Rat`; the `int8_t` parameter is modelled as `Int`.
-/
def Engine.get_control_value (instances : List (Nat → Rat)) (ctrl : Nat)
    (inst : Int) : Rat :=
  if 0 ≤ inst ∧ inst < (instances.length : Int) then
    (instances.getD inst.toNat (fun _ => 0)) ctrl
  else 0

/--
C9: `get_control_value` returns `0` for every out-of-range instance
index (negative, or at least the registry size); for an in-range index
it returns the addressed instance's control value.
-/
theorem get_control_value_bounds (instances : List (Nat → Rat)) (ctrl : Nat)
    (inst : Int) (k : Fin instances.length) :
    ((inst < 0 ∨ (instances.length : Int) ≤ inst) →
        Engine.get_control_value instances ctrl inst = 0)
    ∧ Engine.get_control_value instances ctrl ((k : Nat) : Int)
        = instances.get k ctrl := by
  constructor
  · intro h
    have h2 : ¬ (0 ≤ inst ∧ inst < (instances.length : Int)) := by omega
    simp [Engine.get_control_value, h2]
  · have h : 0 ≤ ((k : Nat) : Int) ∧ ((k : Nat) : Int) < (instances.length : Int) := by
      exact ⟨Int.ofNat_nonneg _, by exact_mod_cast k.isLt⟩
    simp only [Engine.get_control_value, if_pos h, Int.toNat_natCast]
    rw [List.getD_eq_getElem _ _ k.isLt]
    simp [List.get_eq_getElem]

/-- Witness for C9: a single instance whose control 3 reads 7. -/
theorem get_control_value_bounds_witness :
    Engine.get_control_value [fun _ => (7 : Rat)] 3 (-1) = 0
    ∧ Engine.get_control_value [fun _ => (7 : Rat)] 3 ((0 : Nat) : Int)
        = (7 : Rat) := by
  have h := get_control_value_bounds [fun _ => (7 : Rat)] 3 (-1) ⟨0, by decide⟩
  exact ⟨h.1 (by decide), h.2⟩

/-! ## Lifecycle teardown -/

/--
The engine members `Engine::cleanup` touches: whether the pointers
`_osc`, `_event_queue`, `_event_generator` are non-null, and the `_ok`
flag.
-/
structure EngineState where
  osc : Bool
  event_queue : Bool
  event_generator : Bool
  ok : Bool
deriving DecidableEq, Repr

/--
The outcome of one `Engine::cleanup` call: the new member state, and
which pointers this call passed to `delete` (so that deleting an
already-deleted pointer is observable in the model).
-/
structure CleanupEffect where
  state : EngineState
  deletedOsc : Bool
  deletedQueue : Bool
  deletedGenerator : Bool
deriving DecidableEq, Repr

/--
`Engine::cleanup ()` (lines 80-98 of `engine.cpp`): `delete _osc` when
it is non-null — without resetting the member to `0`; delete and null
`_event_queue` and `_event_generator`; clear `_ok`.
-/
def Engine.cleanup (s : EngineState) : CleanupEffect :=
  { state := { osc := s.osc, event_queue := false, event_generator := false,
               ok := false },
    deletedOsc := s.osc,
    deletedQueue := s.event_queue,
    deletedGenerator := s.event_generator }

/--
C10 fails on the code: starting from an initialized engine (all
pointers non-null), the first `cleanup` deletes `_osc` but leaves the
member non-null, so the second `cleanup` passes the already-deleted
`_osc` to `delete` again — a double free, so the repeated call is not
the no-op the claim requires.  The second call does not re-delete
`_event_queue` or `_event_generator`, whose members are nulled,
showing the missing `_osc = 0` is a slip.
-/
theorem cleanup_not_idempotent :
    (Engine.cleanup
        { osc := true, event_queue := true, event_generator := true,
          ok := true }).state.osc = true
    ∧ (Engine.cleanup (Engine.cleanup
        { osc := true, event_queue := true, event_generator := true,
          ok := true }).state).deletedOsc = true
    ∧ (Engine.cleanup (Engine.cleanup
        { osc := true, event_queue := true, event_generator := true,
          ok := true }).state).deletedQueue = false :=
  ⟨rfl, rfl, rfl⟩

end SooperLooper
